import Mathlib

/-!
Verification development for the jobflow workflow library
(reference/graph model, reference resolver, dynamic-response protocol).

The repository snapshot ships the documentation, tutorials, paper and
changelog; the Python implementation modules (`jobflow/core/reference.py`,
`jobflow/core/job.py`, `jobflow/core/flow.py`, `jobflow/managers/local.py`)
are not part of the snapshot.  The definitions below are therefore shallow
embeddings modelled from the specification's description of those modules,
cross-checked against the behaviour documented in the tutorials
(`docs/tutorials`), the JOSS paper (`paper/paper.md`) and the changelog.
-/

set_option maxRecDepth 4096

namespace Jobflow

/-- Modelled from the spec: one element of a Reference `access_path`
("ordered sequence of keys/indices/attribute names to drill into the output
value").  `key` covers mapping keys and attribute names, `item` covers
sequence indices. -/
inductive PathKey where
  | key (k : String)
  | item (i : Nat)
deriving DecidableEq, Repr

/-- Modelled from the spec: the `attempt_index` selector of a Reference,
"which run of that job, defaults to latest". -/
inductive AttemptSel where
  | latest
  | exact (i : Nat)
deriving DecidableEq, Repr

/-- Modelled from the spec: a symbolic pointer to "the output of job X,
attempt/index N, at sub-path P", usable before the value exists
(`OutputReference` in `jobflow/core/reference.py`, absent from the
snapshot).  Equality is structural, via the derived decidable equality. -/
structure OutputReference where
  origin_id : Nat
  attempt : AttemptSel
  access_path : List PathKey
deriving DecidableEq, Repr

/-- Modelled from the spec: the missing-reference policy
(`OnMissing` in `jobflow/core/reference.py`): `ERROR` fails resolution,
`NONE` substitutes a null value, `PASS` leaves the reference in place. -/
inductive OnMissing where
  | ERROR
  | NONE
  | PASS
deriving DecidableEq, Repr

/-- Modelled from the spec: the default missing-reference policy is
`ERROR`. -/
def defaultOnMissing : OnMissing := .ERROR

/-- Modelled from the spec section 7 error taxonomy: `CyclicGraph`
(construction time), `MissingReference` (resolution time),
`ExecutionFailure` (wraps a job's internal exception) and
`StructuralConflict` (a Response sets more than one structural
directive). -/
inductive JfError where
  | CyclicGraph
  | MissingReference
  | StructuralConflict
  | ExecutionFailure (msg : String)
deriving DecidableEq, Repr

mutual

/-- Modelled from the spec: a JSON-compatible value — "any literal, or an
arbitrarily nested mapping/sequence/object possibly containing Reference
instances at any depth". -/
inductive JfValue where
  | null : JfValue
  | bool (b : Bool) : JfValue
  | int (i : Int) : JfValue
  | str (s : String) : JfValue
  | arr (xs : JfList) : JfValue
  | dict (xs : JfDict) : JfValue
  | ref (r : OutputReference) : JfValue

/-- Sequence of values inside a `JfValue.arr`. -/
inductive JfList where
  | nil : JfList
  | cons (x : JfValue) (xs : JfList) : JfList

/-- Key-value mapping inside a `JfValue.dict`. -/
inductive JfDict where
  | nil : JfDict
  | cons (k : String) (x : JfValue) (xs : JfDict) : JfDict

end

/-- Modelled from the spec store contract: the persisted output documents,
a list of `(origin_id, attempt_index, document)` entries
(`JobStore` in `jobflow/core/store.py`, consumed only through a minimal
get/put-by-key contract). -/
abbrev Store := List (Nat × Nat × JfValue)

/-- Highest attempt index recorded in the store for an origin id
(0 when the origin has no entries). -/
def maxAttempt (store : Store) (o : Nat) : Nat :=
  store.foldl (fun acc e => if e.1 = o then max acc e.2.1 else acc) 0

/-- Modelled from the spec store contract
`put(origin_id, attempt_index, document)`: each execution appends a fresh
document under the next attempt index for that origin, never overwriting
an existing attempt in place. -/
def putDoc (store : Store) (o : Nat) (doc : JfValue) : Store :=
  (o, maxAttempt store o + 1, doc) :: store

/-- Document stored for an exact `(origin_id, attempt_index)` pair. -/
def lookupDoc (store : Store) (o : Nat) (a : Nat) : Option JfValue :=
  (store.find? (fun e => e.1 = o ∧ e.2.1 = a)).map (fun e => e.2.2)

/-- Modelled from the spec: attempt selection — an exact attempt index, or
"the most recent completed attempt for that origin_id" for `latest`. -/
def attemptLookup (store : Store) (o : Nat) : AttemptSel → Option JfValue
  | .exact a => lookupDoc store o a
  | .latest => if maxAttempt store o = 0 then none else lookupDoc store o (maxAttempt store o)

/-- Lookup in a sequence value by position. -/
def JfList.get? : JfList → Nat → Option JfValue
  | .nil, _ => none
  | .cons x _, 0 => some x
  | .cons _ xs, n + 1 => xs.get? n

/-- Lookup in a mapping value by key. -/
def JfDict.find? : JfDict → String → Option JfValue
  | .nil, _ => none
  | .cons k x xs, k' => if k = k' then some x else xs.find? k'

/-- Modelled from the spec: apply an `access_path` "by successive
indexing/attribute lookup into the resulting value". -/
def drill : JfValue → List PathKey → Option JfValue
  | v, [] => some v
  | v, pk :: p =>
    match v, pk with
    | .arr xs, .item i =>
      match xs.get? i with
      | some x => drill x p
      | none => none
    | .dict xs, .key k =>
      match xs.find? k with
      | some x => drill x p
      | none => none
    | _, _ => none

/-- Modelled from the spec: full lookup of one Reference against the store —
select the document for `(origin_id, attempt_index)` then drill down along
the access path.  A Reference whose target job failed or never ran (no
stored document), or whose path does not exist in the document, is treated
as missing. -/
def refLookup (store : Store) (r : OutputReference) : Option JfValue :=
  match attemptLookup store r.origin_id r.attempt with
  | some doc => drill doc r.access_path
  | none => none

/-- Modelled from the spec: the per-resolution cache, keyed by the full
`(origin_id, attempt_index, access_path)` tuple, read/write-local to one
resolution call. -/
abbrev Cache := List (OutputReference × JfValue)

/-- Cache lookup by structural Reference equality. -/
def cacheGet (c : Cache) (r : OutputReference) : Option JfValue :=
  (c.find? (fun e => e.1 = r)).map (fun e => e.2)

/-- Cache insertion of a final drilled-down value. -/
def cachePut (c : Cache) (r : OutputReference) (v : JfValue) : Cache :=
  (r, v) :: c

mutual

/-- Modelled from the spec resolver contract
`resolve(value, store, cache, on_missing) -> concrete_value`: recursively
traverse containers; for each Reference consult the cache first, then the
store; cache the drilled-down value; on a missing Reference apply the
`on_missing` policy (`ERROR` fails with `MissingReference`, `NONE`
substitutes null, `PASS` leaves the Reference in place). -/
def resolveVal (om : OnMissing) (store : Store) :
    JfValue → Cache → Except JfError (JfValue × Cache)
  | .ref r, c =>
    match cacheGet c r with
    | some v => .ok (v, c)
    | none =>
      match refLookup store r with
      | some v => .ok (v, cachePut c r v)
      | none =>
        match om with
        | .ERROR => .error .MissingReference
        | .NONE => .ok (.null, c)
        | .PASS => .ok (.ref r, c)
  | .arr xs, c =>
    match resolveList om store xs c with
    | .ok (ys, c') => .ok (.arr ys, c')
    | .error e => .error e
  | .dict xs, c =>
    match resolveDict om store xs c with
    | .ok (ys, c') => .ok (.dict ys, c')
    | .error e => .error e
  | .null, c => .ok (.null, c)
  | .bool b, c => .ok (.bool b, c)
  | .int i, c => .ok (.int i, c)
  | .str s, c => .ok (.str s, c)

/-- Resolver traversal of a sequence, threading the cache left to right. -/
def resolveList (om : OnMissing) (store : Store) :
    JfList → Cache → Except JfError (JfList × Cache)
  | .nil, c => .ok (.nil, c)
  | .cons x xs, c =>
    match resolveVal om store x c with
    | .ok (y, c') =>
      match resolveList om store xs c' with
      | .ok (ys, c'') => .ok (.cons y ys, c'')
      | .error e => .error e
    | .error e => .error e

/-- Resolver traversal of a mapping, threading the cache left to right. -/
def resolveDict (om : OnMissing) (store : Store) :
    JfDict → Cache → Except JfError (JfDict × Cache)
  | .nil, c => .ok (.nil, c)
  | .cons k x xs, c =>
    match resolveVal om store x c with
    | .ok (y, c') =>
      match resolveDict om store xs c' with
      | .ok (ys, c'') => .ok (.cons k y ys, c'')
      | .error e => .error e
    | .error e => .error e

end

mutual

/-- Embedded References of a value, in traversal order. -/
def refsOfVal : JfValue → List OutputReference
  | .ref r => [r]
  | .arr xs => refsOfList xs
  | .dict xs => refsOfDict xs
  | _ => []

/-- Embedded References of a sequence. -/
def refsOfList : JfList → List OutputReference
  | .nil => []
  | .cons x xs => refsOfVal x ++ refsOfList xs

/-- Embedded References of a mapping. -/
def refsOfDict : JfDict → List OutputReference
  | .nil => []
  | .cons _ x xs => refsOfVal x ++ refsOfDict xs

end

/-- Whether a value contains no embedded Reference at any depth. -/
def hasRefB (v : JfValue) : Bool := !(refsOfVal v).isEmpty

/-- Whether a value embeds at least one Reference that is missing with
respect to the store (producer failed or never ran, or the access path
does not exist in the stored document). -/
def containsMissing (store : Store) (v : JfValue) : Bool :=
  (refsOfVal v).any (fun r => (refLookup store r).isNone)

/-- Modelled from the spec Graph Builder: one round of Kahn-style
topological sorting — pick the first remaining node with no incoming edge
from another remaining node; a round with no such node witnesses a cycle. -/
def topoAux (edges : List (Nat × Nat)) : Nat → List Nat → Option (List Nat)
  | 0, [] => some []
  | 0, _ :: _ => none
  | _ + 1, [] => some []
  | fuel + 1, x :: xs =>
    match (x :: xs).find? (fun n => !(edges.any (fun e => e.2 = n && (x :: xs).contains e.1))) with
    | none => none
    | some n =>
      match topoAux edges fuel ((x :: xs).erase n) with
      | some order => some (n :: order)
      | none => none

/-- Modelled from the spec Graph Builder: topological sort of the node set,
failing with `CyclicGraph` when the standard topological sort cannot make
progress. -/
def topoSort (nodes : List Nat) (edges : List (Nat × Nat)) : Except JfError (List Nat) :=
  match topoAux edges nodes.length nodes with
  | some order => .ok order
  | none => .error .CyclicGraph

/-- Position of an element in a list (length of the list when absent). -/
def posIn : List Nat → Nat → Nat
  | [], _ => 0
  | x :: xs, a => if x = a then 0 else posIn xs a + 1

/-- Nonempty directed path along the edge list. -/
inductive EdgePath (edges : List (Nat × Nat)) : Nat → Nat → Prop where
  | single {a b : Nat} : (a, b) ∈ edges → EdgePath edges a b
  | cons {a b c : Nat} : (a, b) ∈ edges → EdgePath edges b c → EdgePath edges a c

/-- The dependency graph contains a cycle: some node has a nonempty path
back to itself. -/
def HasCycle (edges : List (Nat × Nat)) : Prop := ∃ a, EdgePath edges a a

mutual

/-- Modelled from the spec: an atomic deferred unit of work
(`Job` in `jobflow/core/job.py`, absent from the snapshot): a stable
`origin_id` assigned once at construction, a human name, the
reference-bearing inputs, the wrapped callable, the on-missing-reference
policy of its config, and free-form metadata. -/
inductive Job where
  | mk (origin_id : Nat) (name : String) (inputs : JfValue)
       (fn : JfValue → RunResult) (onMissing : OnMissing)
       (metadata : List (String × JfValue))

/-- Modelled from the spec job execution contract: what the wrapped
callable can do — return a plain value (wrapped into a Response by the
job), return an explicit Response, or raise an exception. -/
inductive RunResult where
  | value (v : JfValue)
  | response (r : Response)
  | failure (msg : String)

/-- Modelled from the spec and the tutorial output
`Response(output=..., detour=None, addition=None, replace=None,
stored_data=None, stop_children=False, stop_jobflow=False)`
(`docs/tutorials/3-creating-flows.ipynb`): the structured result of a job
run — a plain output plus at most one structural directive among
`replace`/`addition`/`detour` and the `stop_children`/`stop_jobflow`
flags. -/
inductive Response where
  | mk (output : Option JfValue) (detour : Option Flow) (addition : Option Flow)
       (replace : Option Flow) (stored_data : Option JfValue)
       (stop_children : Bool) (stop_jobflow : Bool)

/-- Modelled from the spec: a named, ordered collection of jobs and/or
nested flows (`Flow` in `jobflow/core/flow.py`, absent from the
snapshot). -/
inductive Flow where
  | job (j : Job)
  | flow (name : String) (members : FlowList)

/-- Members of a `Flow.flow`. -/
inductive FlowList where
  | nil : FlowList
  | cons (m : Flow) (ms : FlowList) : FlowList

end

/-- Stable identity of a job, shared across re-executions. -/
def Job.origin : Job → Nat
  | .mk o _ _ _ _ _ => o

/-- Human-readable job name. -/
def Job.jobName : Job → String
  | .mk _ n _ _ _ _ => n

/-- Positional and keyword inputs collected into one reference-bearing
value. -/
def Job.inputs : Job → JfValue
  | .mk _ _ i _ _ _ => i

/-- The wrapped callable. -/
def Job.fn : Job → JfValue → RunResult
  | .mk _ _ _ f _ _ => f

/-- Missing-reference policy declared by the job's config. -/
def Job.onMissing : Job → OnMissing
  | .mk _ _ _ _ om _ => om

/-- Free-form metadata attached to the job. -/
def Job.metadata : Job → List (String × JfValue)
  | .mk _ _ _ _ _ md => md

/-- Plain output value carried by the Response. -/
def Response.output : Response → Option JfValue
  | .mk out _ _ _ _ _ _ => out

/-- Detour directive of the Response. -/
def Response.detour : Response → Option Flow
  | .mk _ d _ _ _ _ _ => d

/-- Addition directive of the Response. -/
def Response.addition : Response → Option Flow
  | .mk _ _ a _ _ _ _ => a

/-- Replace directive of the Response. -/
def Response.replace : Response → Option Flow
  | .mk _ _ _ rp _ _ _ => rp

/-- Stop-children flag of the Response. -/
def Response.stop_children : Response → Bool
  | .mk _ _ _ _ _ sc _ => sc

/-- Stop-jobflow flag of the Response. -/
def Response.stop_jobflow : Response → Bool
  | .mk _ _ _ _ _ _ sj => sj

/-- Response wrapping a plain return value of the callable, all directives
unset — the shape printed by the creating-flows tutorial. -/
def valueResponse (v : JfValue) : Response :=
  .mk (some v) none none none none false false

/-- Number of structural directives (`replace`/`addition`/`detour`) set on
a Response. -/
def Response.structuralCount (r : Response) : Nat :=
  (if r.replace.isSome then 1 else 0) + (if r.addition.isSome then 1 else 0)
    + (if r.detour.isSome then 1 else 0)

/-- Modelled from the spec invariant "structural directives are mutually
exclusive; exactly one may be set at a time per response": a Response
setting more than one of `replace`/`addition`/`detour` is rejected with
`StructuralConflict` before any graph mutation is applied. -/
def validateResponse (r : Response) : Except JfError Response :=
  if r.structuralCount ≤ 1 then .ok r else .error .StructuralConflict

mutual

/-- Modelled from the spec: flattening of a Flow's transitively-contained
jobs, nesting being a grouping convenience. -/
def flattenFlow : Flow → List Job
  | .job j => [j]
  | .flow _ ms => flattenMembers ms

/-- Flattening of a member list. -/
def flattenMembers : FlowList → List Job
  | .nil => []
  | .cons m ms => flattenFlow m ++ flattenMembers ms

end

/-- Build a `FlowList` from an ordinary list of jobs. -/
def flowListOf : List Job → FlowList
  | [] => .nil
  | j :: js => .cons (.job j) (flowListOf js)

/-- Flow with the given jobs as direct members. -/
def flowOf (js : List Job) : Flow := .flow "flow" (flowListOf js)

/-- Modelled from the spec Graph Builder: producer→consumer edges between
the given jobs — for every job, deep-scan its inputs for embedded
References, and for each Reference whose origin matches a job in `scope`,
add a directed edge from the producer origin to the consumer origin. -/
def edgesFor (js : List Job) (scope : List Nat) : List (Nat × Nat) :=
  js.flatMap (fun c =>
    (refsOfVal c.inputs).filterMap (fun r =>
      if scope.contains r.origin_id then some (r.origin_id, c.origin) else none))

/-- Origin ids of the flattened member jobs of a Flow, deduplicated. -/
def flowNodes (f : Flow) : List Nat :=
  ((flattenFlow f).map Job.origin).dedup

/-- Modelled from the spec Graph Builder: the dependency edges of a Flow
over its flattened member jobs. -/
def flowEdges (f : Flow) : List (Nat × Nat) :=
  edgesFor (flattenFlow f) ((flattenFlow f).map Job.origin)

/-- Modelled from the spec: construction-time graph check of a Flow —
topologically sort the flattened origin ids, raising `CyclicGraph` on
topological-sort failure before any execution begins. -/
def flowCheck (f : Flow) : Except JfError (List Nat) :=
  topoSort (flowNodes f) (flowEdges f)

/-- Modelled from the spec dynamic-mutation state machine:
`PENDING → RUNNING → COMPLETED | FAILED | CANCELLED`, with `REPLACED` the
terminal state of a node whose Response carried `replace`. -/
inductive JobState where
  | PENDING
  | RUNNING
  | COMPLETED
  | FAILED
  | CANCELLED
  | REPLACED
deriving DecidableEq, Repr

/-- Modelled from the spec execution driver: the per-run shared state —
the not-yet-executed jobs, the current dependency edges, the document
store, the per-origin per-attempt record of Responses, the node state
machine, the stop-jobflow flag and the abort error (set when a fatal error
is raised, leaving the rest of the state untouched). -/
structure DState where
  remaining : List Job
  edges : List (Nat × Nat)
  store : Store
  responses : List (Nat × List (Nat × Response))
  states : List (Nat × JobState)
  stopped : Bool
  aborted : Option JfError

/-- Record the node state of an origin id. -/
def setState (sts : List (Nat × JobState)) (o : Nat) (s : JobState) :
    List (Nat × JobState) :=
  (o, s) :: sts.filter (fun p => p.1 ≠ o)

/-- Current node state of an origin id. -/
def lookupState (st : DState) (o : Nat) : Option JobState :=
  (st.states.find? (fun p => p.1 = o)).map (fun p => p.2)

/-- Record one attempt's Response under its origin id. -/
def recordResp (rs : List (Nat × List (Nat × Response))) (o : Nat) (att : Nat)
    (r : Response) : List (Nat × List (Nat × Response)) :=
  match rs.find? (fun p => p.1 = o) with
  | some p => (o, p.2 ++ [(att, r)]) :: rs.filter (fun q => q.1 ≠ o)
  | none => (o, [(att, r)]) :: rs

/-- The Response recorded for an origin id at an attempt index. -/
def getResp (st : DState) (o : Nat) (att : Nat) : Option Response :=
  match st.responses.find? (fun p => p.1 = o) with
  | some p => (p.2.find? (fun q => q.1 = att)).map (fun q => q.2)
  | none => none

/-- Whether the store holds any document for an origin id. -/
def storeHasOrigin (store : Store) (o : Nat) : Bool :=
  store.any (fun e => e.1 = o)

/-- Modelled from the spec job execution contract `run(store) -> Response`:
all inputs are passed through the Resolver under the job's declared
`on_missing` policy (with a fresh per-resolution cache) before the wrapped
callable is invoked; a raising callable surfaces `ExecutionFailure`; a
plain return value is wrapped into a Response. -/
def jobRun (j : Job) (store : Store) : Except JfError Response :=
  match resolveVal j.onMissing store j.inputs [] with
  | .error e => .error e
  | .ok (args, _) =>
    match j.fn args with
    | .value v => .ok (valueResponse v)
    | .response r => .ok r
    | .failure m => .error (.ExecutionFailure m)

mutual

/-- Rewrite every Reference to origin `old` so that it points at origin
`new`, keeping attempt selector and access path. -/
def rewireVal (old new : Nat) : JfValue → JfValue
  | .ref r => if r.origin_id = old then .ref ⟨new, r.attempt, r.access_path⟩ else .ref r
  | .arr xs => .arr (rewireList old new xs)
  | .dict xs => .dict (rewireDict old new xs)
  | v => v

/-- Reference rewiring inside a sequence. -/
def rewireList (old new : Nat) : JfList → JfList
  | .nil => .nil
  | .cons x xs => .cons (rewireVal old new x) (rewireList old new xs)

/-- Reference rewiring inside a mapping. -/
def rewireDict (old new : Nat) : JfDict → JfDict
  | .nil => .nil
  | .cons k x xs => .cons k (rewireVal old new x) (rewireDict old new xs)

end

/-- Rewire the References embedded in a job's inputs. -/
def rewireJob (old new : Nat) (j : Job) : Job :=
  .mk j.origin j.jobName (rewireVal old new j.inputs) j.fn j.onMissing j.metadata

/-- Modelled from the changelog v0.1.5 ("pass metadata automatically"):
the injecting job's metadata is merged into a dynamically added job's
metadata, unconditionally. -/
def passMetaJob (md : List (String × JfValue)) (k : Job) : Job :=
  .mk k.origin k.jobName k.inputs k.fn k.onMissing (md ++ k.metadata)

/-- Terminal job origin of an injected subgraph: the origin of the last
flattened member job (the subgraph's output job). -/
def terminalOrigin (f : Flow) : Nat :=
  ((flattenFlow f).map Job.origin).getLast?.getD 0

/-- One breadth step of graph reachability restricted to `allowed`. -/
def growOnce (edges : List (Nat × Nat)) (allowed s : List Nat) : List Nat :=
  s ++ allowed.filter (fun c =>
    !s.contains c && edges.any (fun e => e.2 = c && s.contains e.1))

/-- Fuelled reachability closure restricted to `allowed`. -/
def closure (edges : List (Nat × Nat)) (allowed : List Nat) :
    Nat → List Nat → List Nat
  | 0, s => s
  | n + 1, s => closure edges allowed n (growOnce edges allowed s)

/-- Pending roots with respect to a stopping origin `o`: pending nodes all
of whose producers are already settled (no longer pending) and distinct
from `o`. -/
def rootsOf (edges : List (Nat × Nat)) (pending : List Nat) (o : Nat) : List Nat :=
  pending.filter (fun n =>
    ((edges.filter (fun e => e.2 = n)).map (fun e => e.1)).all
      (fun p => !pending.contains p && p ≠ o))

/-- Pending nodes still reachable from a pending root without passing
through the stopping origin `o`. -/
def survivorsOf (edges : List (Nat × Nat)) (pending : List Nat) (o : Nat) : List Nat :=
  closure edges pending pending.length (rootsOf edges pending o)

/-- Modelled from the spec `stop_children` semantics: among the pending
nodes, those reachable only through the stopping job `o` transition to
`CANCELLED` without invocation; the others are kept. -/
def pruneChildren (st : DState) (o : Nat) : DState :=
  let survivors := survivorsOf st.edges (st.remaining.map Job.origin) o
  { st with
    remaining := st.remaining.filter (fun j => survivors.contains j.origin)
    states := ((st.remaining.map Job.origin).filter
        (fun n => !survivors.contains n)).foldl
      (fun sts n => setState sts n .CANCELLED) st.states }

/-- Mark every not-yet-executed job `CANCELLED` (used by `stop_jobflow`:
every pending node in the whole run transitions to `CANCELLED`). -/
def cancelAll (st : DState) : DState :=
  { st with
    remaining := []
    states := (st.remaining.map Job.origin).foldl
      (fun sts n => setState sts n .CANCELLED) st.states }

/-- Modelled from the spec eligibility rule: a pending job is ready once
every producer it has an incoming edge from is settled (no longer
pending); the driver picks the first ready job of the remaining list. -/
def findReady (st : DState) : Option Job :=
  let pending := st.remaining.map Job.origin
  st.remaining.find? (fun j =>
    (st.edges.filter (fun e => e.2 = j.origin)).all
      (fun e => !pending.contains e.1))

/-- Modelled from the spec dynamic-mutation protocol (section 4.4): apply
a validated Response of job `j` to the driver state — persist the output
under the next attempt index unless the job was replaced (a replaced job
produces no output of its own), record the Response, inject
`replace`/`addition`/`detour` subgraphs (passing the injecting job's
metadata on to the added jobs), rewire the consumers of a replaced job to
the terminal job of the injected subgraph, and process the
`stop_children`/`stop_jobflow` flags. -/
def applyResponse (st : DState) (j : Job) (r : Response) : DState :=
  let att := maxAttempt st.store j.origin + 1
  let st1 : DState := { st with
    store := if r.replace.isSome then st.store
             else putDoc st.store j.origin ((r.output).getD .null)
    responses := recordResp st.responses j.origin att r
    states := setState st.states j.origin
      (if r.replace.isSome then .REPLACED else .COMPLETED) }
  let st2 : DState :=
    match r.replace with
    | some f =>
      let newJobs := (flattenFlow f).map (passMetaJob j.metadata)
      let term := terminalOrigin f
      let rewired := st1.remaining.map (rewireJob j.origin term)
      let scope := (newJobs ++ rewired).map Job.origin
      { st1 with
        remaining := newJobs ++ rewired
        edges := (st1.edges.map (fun e => if e.1 = j.origin then (term, e.2) else e))
          ++ edgesFor newJobs scope }
    | none =>
      match r.addition with
      | some f =>
        let newJobs := (flattenFlow f).map (passMetaJob j.metadata)
        let scope := (st1.remaining ++ newJobs).map Job.origin
        { st1 with
          remaining := st1.remaining ++ newJobs
          edges := st1.edges ++ edgesFor newJobs scope
            ++ newJobs.map (fun n => (j.origin, n.origin)) }
      | none =>
        match r.detour with
        | some f =>
          let newJobs := (flattenFlow f).map (passMetaJob j.metadata)
          let scope := (st1.remaining ++ newJobs).map Job.origin
          let holds := (newJobs.map Job.origin).flatMap (fun n =>
            (st1.remaining.map Job.origin).map (fun s => (n, s)))
          { st1 with
            remaining := st1.remaining ++ newJobs
            edges := st1.edges ++ edgesFor newJobs scope
              ++ newJobs.map (fun n => (j.origin, n.origin)) ++ holds }
        | none => st1
  let st3 := if r.stop_children then pruneChildren st2 j.origin else st2
  if r.stop_jobflow then { st3 with stopped := true } else st3

/-- Validate a Response and apply it; a structural conflict is rejected
before any graph mutation, leaving the state unchanged apart from the
abort marker. -/
def handleResponse (st : DState) (j : Job) (r : Response) : DState :=
  match validateResponse r with
  | .ok _ => applyResponse st j r
  | .error e => { st with aborted := some e }

/-- Remove a job from the pending list by origin id. -/
def removeJob (st : DState) (o : Nat) : DState :=
  { st with remaining := st.remaining.filter (fun j => j.origin ≠ o) }

/-- Modelled from the spec execution driver: execute one job — run it
against the store (resolution first, then the callable); a resolution or
execution failure marks the job `FAILED` for this attempt with no output
persisted; a successful Response is validated and applied. -/
def stepJob (st : DState) (j : Job) : DState :=
  match jobRun j st.store with
  | .error _ =>
    let st' := removeJob st j.origin
    { st' with states := setState st'.states j.origin .FAILED }
  | .ok r => handleResponse (removeJob st j.origin) j r

/-- Modelled from the spec driver loop: repeatedly compute the ready set,
execute one ready job and apply its Response, until no pending job remains
(or the run was aborted or stopped). -/
def runLoop : Nat → DState → DState
  | 0, st => st
  | fuel + 1, st =>
    if st.aborted.isSome then st
    else if st.stopped then cancelAll st
    else
      match findReady st with
      | none => st
      | some j => runLoop fuel (stepJob st j)

/-- Initial driver state for a Flow against a store: all flattened member
jobs pending. -/
def initState (f : Flow) (store : Store) : DState :=
  { remaining := flattenFlow f
    edges := flowEdges f
    store := store
    responses := []
    states := (flattenFlow f).map (fun j => (j.origin, JobState.PENDING))
    stopped := false
    aborted := none }

/-- Modelled from the spec and `jobflow/managers/local.py` (absent from
the snapshot): the sequential local driver `run_locally` — check the flow
graph first, raising `CyclicGraph` before any job executes, then walk the
jobs in dependency order.  The fuel bounds the number of driver rounds,
covering the dynamically injected jobs of the modelled scenarios. -/
def runLocally (f : Flow) (store : Store) : DState :=
  match flowCheck f with
  | .error e => { initState f store with aborted := some e }
  | .ok _ => runLoop ((flattenFlow f).length * 4 + 4) (initState f store)

/-- Integer content of a value (0 for non-integers, in particular for the
null substituted by `OnMissing.NONE`). -/
def intOf : JfValue → Int
  | .int i => i
  | _ => 0

/-- Sum of the integer contents of a sequence, skipping missing values. -/
def sumJf : JfList → Int
  | .nil => 0
  | .cons x xs => intOf x + sumJf xs

/-- Product of the integer contents of a sequence. -/
def prodJf : JfList → Int
  | .nil => 1
  | .cons x xs => intOf x * prodJf xs

/-- Sum of an argument sequence value. -/
def sumVal : JfValue → Int
  | .arr xs => sumJf xs
  | _ => 0

/-- Product of an argument sequence value. -/
def prodVal : JfValue → Int
  | .arr xs => prodJf xs
  | _ => 0

/-- Reference to the whole latest output of an origin id. -/
def outRef (o : Nat) : JfValue := .ref ⟨o, .latest, []⟩

/-! Scenario of the failing-dependencies tutorial notebook shipped with
the snapshot: three `func` jobs of which one raises, and a `collect` job
summing their outputs. -/

/-- A tutorial `func()` job returning 1. -/
def funcJob (o : Nat) : Job :=
  .mk o "func" .null (fun _ => .value (.int 1)) defaultOnMissing []

/-- A tutorial `func(fail=True)` job that raises. -/
def failJob (o : Nat) : Job :=
  .mk o "func" .null (fun _ => .failure "An error occurred.") defaultOnMissing []

/-- Inputs of the tutorial `collect` job: the outputs of the three `func`
jobs. -/
def collectInputs : JfValue :=
  .arr (.cons (outRef 1) (.cons (outRef 2) (.cons (outRef 3) .nil)))

/-- The tutorial `collect` job, with a configurable missing-reference
policy and callable. -/
def collectJob (om : OnMissing) (f : JfValue → RunResult) : Job :=
  .mk 4 "collect" collectInputs f om []

/-- The tutorial collect callable: sum the parent outputs, skipping
missing ones. -/
def collectFn : JfValue → RunResult := fun v => .value (.int (sumVal v))

/-- The tutorial flow `Flow([job1, job2, job3, collect_job])`. -/
def tutorialFlow (om : OnMissing) (f : JfValue → RunResult) : Flow :=
  flowOf [funcJob 1, funcJob 2, failJob 3, collectJob om f]

/-! Scenario for the `replace` directive (paper, Dynamic Workflows):
job B replaces itself with `Flow([C])`, and job D consumes B's output. -/

/-- Replacement job C, producing the value `v`. -/
def jobC (v : JfValue) : Job :=
  .mk 2 "C" .null (fun _ => .value v) defaultOnMissing []

/-- Job B, whose run returns `Response(replace=Flow([C]))`. -/
def jobB (v : JfValue) : Job :=
  .mk 1 "B" .null
    (fun _ => .response (.mk none none none (some (.job (jobC v))) none false false))
    defaultOnMissing []

/-- Job D, referencing the replaced job B's output and applying `f`. -/
def jobD (f : JfValue → JfValue) : Job :=
  .mk 3 "D" (outRef 1) (fun x => .value (f x)) defaultOnMissing []

/-- The replace scenario flow `Flow([B, D])`. -/
def replaceFlow (v : JfValue) (f : JfValue → JfValue) : Flow :=
  flowOf [jobB v, jobD f]

/-! Scenario for `stop_children`: job A stops its children; B is reachable
only through A; D is an unrelated branch; E depends on both A and D, so it
is downstream of A but not exclusively so. -/

/-- Job A: produces 1 and sets `stop_children`. -/
def jobA6 : Job :=
  .mk 1 "A" .null
    (fun _ => .response (.mk (some (.int 1)) none none none none true false))
    defaultOnMissing []

/-- Job B: exclusively downstream of A, with an arbitrary callable. -/
def jobB6 (fB : JfValue → RunResult) : Job :=
  .mk 2 "B" (outRef 1) fB defaultOnMissing []

/-- Job D: an unrelated branch of the same flow, producing `d`. -/
def jobD6 (d : JfValue) : Job :=
  .mk 3 "D" .null (fun _ => .value d) defaultOnMissing []

/-- Job E: downstream of both A and D, hence not exclusively downstream
of A. -/
def jobE6 (g : JfValue → JfValue) : Job :=
  .mk 5 "E" (.arr (.cons (outRef 1) (.cons (outRef 3) .nil)))
    (fun x => .value (g x)) defaultOnMissing []

/-- The stop-children scenario flow `Flow([A, B, D, E])`. -/
def stopFlow (fB : JfValue → RunResult) (d : JfValue) (g : JfValue → JfValue) : Flow :=
  flowOf [jobA6, jobB6 fB, jobD6 d, jobE6 g]

/-! Scenario for duplicate runs: a single job re-run against the same
store. -/

/-- Single job of the re-run scenario, computing `f` of its (literal)
input. -/
def jobA7 (f : JfValue → JfValue) : Job :=
  .mk 7 "A" .null (fun x => .value (f x)) defaultOnMissing []

/-- One-job flow of the re-run scenario. -/
def rerunFlow (f : JfValue → JfValue) : Flow := flowOf [jobA7 f]

/-! Scenario of the creating-flows tutorial: `job1 = add(1, 2)` (with the
default `c=2`) and `job2 = mult(job1.output, 3)`. -/

/-- The tutorial `add(1, 2)` job (summing to 5 with the default c=2). -/
def addJob : Job :=
  .mk 10 "add" (.arr (.cons (.int 1) (.cons (.int 2) (.cons (.int 2) .nil))))
    (fun v => .value (.int (sumVal v))) defaultOnMissing []

/-- The tutorial `mult(job1.output, 3)` job. -/
def multJob : Job :=
  .mk 11 "mult" (.arr (.cons (outRef 10) (.cons (.int 3) .nil)))
    (fun v => .value (.int (prodVal v))) defaultOnMissing []

/-- The tutorial flow `Flow([job1, job2], name="my-flow")`. -/
def docsFlow : Flow := .flow "my-flow" (flowListOf [addJob, multJob])

/-- A cyclic construction: two jobs each referencing the other's
output. -/
def cycFlow : Flow :=
  flowOf
    [ .mk 20 "x" (outRef 21) (fun _ => .value .null) defaultOnMissing []
    , .mk 21 "y" (outRef 20) (fun _ => .value .null) defaultOnMissing [] ]

/-- The Response returned by job A of the stop-children scenario. -/
def respA6 : Response := .mk (some (.int 1)) none none none none true false

/-- The resolved argument received by job E of the stop-children scenario:
A's output followed by D's output. -/
def argE6 (d : JfValue) : JfValue := .arr (.cons (.int 1) (.cons d .nil))

/-- Initial driver state of the stop-children scenario. -/
def st6a (fB : JfValue → RunResult) (d : JfValue) (g : JfValue → JfValue) : DState :=
  ⟨[jobA6, jobB6 fB, jobD6 d, jobE6 g], [(1, 2), (1, 5), (3, 5)], [], [],
    [(1, .PENDING), (2, .PENDING), (3, .PENDING), (5, .PENDING)], false, none⟩

/-- Driver state of the stop-children scenario after job A ran: B was
cancelled without invocation, D and E are still pending. -/
def st6b (d : JfValue) (g : JfValue → JfValue) : DState :=
  ⟨[jobD6 d, jobE6 g], [(1, 2), (1, 5), (3, 5)], [(1, 1, .int 1)],
    [(1, [(1, respA6)])],
    [(2, .CANCELLED), (1, .COMPLETED), (3, .PENDING), (5, .PENDING)], false, none⟩

/-- Driver state of the stop-children scenario after jobs A and D ran. -/
def st6c (d : JfValue) (g : JfValue → JfValue) : DState :=
  ⟨[jobE6 g], [(1, 2), (1, 5), (3, 5)], [(3, 1, d), (1, 1, .int 1)],
    [(3, [(1, valueResponse d)]), (1, [(1, respA6)])],
    [(3, .COMPLETED), (2, .CANCELLED), (1, .COMPLETED), (5, .PENDING)], false, none⟩

/-- Final driver state of the stop-children scenario. -/
def st6d (d : JfValue) (g : JfValue → JfValue) : DState :=
  ⟨[], [(1, 2), (1, 5), (3, 5)],
    [(5, 1, g (argE6 d)), (3, 1, d), (1, 1, .int 1)],
    [(5, [(1, valueResponse (g (argE6 d)))]), (3, [(1, valueResponse d)]),
      (1, [(1, respA6)])],
    [(5, .COMPLETED), (3, .COMPLETED), (2, .CANCELLED), (1, .COMPLETED)], false, none⟩

/-- A Response setting both `replace` and `addition`, violating the
mutual-exclusivity invariant. -/
def conflictResponse : Response :=
  .mk none none (some (flowOf [])) (some (flowOf [])) none false false

/-- A job carrying nonempty metadata, used to exercise metadata
propagation. -/
def metaJob : Job :=
  .mk 30 "meta" .null (fun _ => .value .null) defaultOnMissing
    [("tag", .str "x")]

/-- The Response returned by job B of the replace scenario. -/
def respB (v : JfValue) : Response :=
  .mk none none none (some (.job (jobC v))) none false false

/-- Job D of the replace scenario after the driver rewired its Reference
from the replaced job B (origin 1) to the terminal job C (origin 2) of the
injected subgraph. -/
def jobDr (f : JfValue → JfValue) : Job :=
  .mk 3 "D" (outRef 2) (fun x => .value (f x)) defaultOnMissing []

/-- Final driver state of the replace scenario: C and the rewired D
completed, B replaced, no document ever stored under B's origin. -/
def st3fin (v : JfValue) (f : JfValue → JfValue) : DState :=
  ⟨[], [(2, 3)], [(3, 1, f v), (2, 1, v)],
    [(3, [(1, valueResponse (f v))]), (2, [(1, valueResponse v)]),
      (1, [(1, respB v)])],
    [(3, .COMPLETED), (2, .COMPLETED), (1, .REPLACED)], false, none⟩

/-- A resolution cache is sound for a store when it holds no entry for a
Reference that is missing from the store (the resolver only ever caches
values it actually fetched). -/
def CacheSound (store : Store) (c : Cache) : Prop :=
  ∀ r : OutputReference, refLookup store r = none → cacheGet c r = none

/-!  Helper lemmas about the resolver. -/

theorem cacheSound_nil (store : Store) : CacheSound store [] := by
  intro r _
  rfl

mutual

theorem resolve_noRef_val : ∀ (v : JfValue), refsOfVal v = [] →
    ∀ om store c, resolveVal om store v c = .ok (v, c)
  | .null, _, _, _, _ => rfl
  | .bool _, _, _, _, _ => rfl
  | .int _, _, _, _, _ => rfl
  | .str _, _, _, _, _ => rfl
  | .ref _, h, _, _, _ => by simp [refsOfVal] at h
  | .arr xs, h, om, store, c => by
    have hx : refsOfList xs = [] := by simpa [refsOfVal] using h
    simp [resolveVal, resolve_noRef_list xs hx om store c]
  | .dict xs, h, om, store, c => by
    have hx : refsOfDict xs = [] := by simpa [refsOfVal] using h
    simp [resolveVal, resolve_noRef_dict xs hx om store c]

theorem resolve_noRef_list : ∀ (xs : JfList), refsOfList xs = [] →
    ∀ om store c, resolveList om store xs c = .ok (xs, c)
  | .nil, _, _, _, _ => rfl
  | .cons x xs, h, om, store, c => by
    have h12 := List.append_eq_nil.mp (by simpa [refsOfList] using h)
    simp [resolveList, resolve_noRef_val x h12.1 om store c,
      resolve_noRef_list xs h12.2 om store c]

theorem resolve_noRef_dict : ∀ (xs : JfDict), refsOfDict xs = [] →
    ∀ om store c, resolveDict om store xs c = .ok (xs, c)
  | .nil, _, _, _, _ => rfl
  | .cons k x xs, h, om, store, c => by
    have h12 := List.append_eq_nil.mp (by simpa [refsOfDict] using h)
    simp [resolveDict, resolve_noRef_val x h12.1 om store c,
      resolve_noRef_dict xs h12.2 om store c]

end

theorem cacheSound_put {store : Store} {c : Cache} (hs : CacheSound store c)
    {r : OutputReference} {v : JfValue} (hr : refLookup store r = some v) :
    CacheSound store (cachePut c r v) := by
  intro r' hr'
  have hne : ¬(r = r') := by
    intro e
    rw [e, hr'] at hr
    cases hr
  simpa [cacheGet, cachePut, List.find?, hne] using hs r' hr'

mutual

theorem resolve_sound_val : ∀ (om : OnMissing) (store : Store) (v : JfValue)
    (c : Cache) (y : JfValue) (c' : Cache),
    resolveVal om store v c = .ok (y, c') → CacheSound store c → CacheSound store c'
  | om, store, .null, c, y, c', h, hs => by
    simp only [resolveVal] at h
    cases h
    exact hs
  | om, store, .bool _, c, y, c', h, hs => by
    simp only [resolveVal] at h
    cases h
    exact hs
  | om, store, .int _, c, y, c', h, hs => by
    simp only [resolveVal] at h
    cases h
    exact hs
  | om, store, .str _, c, y, c', h, hs => by
    simp only [resolveVal] at h
    cases h
    exact hs
  | om, store, .ref r, c, y, c', h, hs => by
    simp only [resolveVal] at h
    cases hc : cacheGet c r with
    | some v =>
      rw [hc] at h
      cases h
      exact hs
    | none =>
      rw [hc] at h
      cases hl : refLookup store r with
      | some v =>
        rw [hl] at h
        cases h
        exact cacheSound_put hs hl
      | none =>
        rw [hl] at h
        cases om <;> simp only at h <;> first
          | (cases h; exact hs)
          | cases h
  | om, store, .arr xs, c, y, c', h, hs => by
    simp only [resolveVal] at h
    cases hr : resolveList om store xs c with
    | ok p =>
      rw [hr] at h
      cases h
      exact resolve_sound_list om store xs c p.1 p.2 (by rw [hr]) hs
    | error e =>
      rw [hr] at h
      cases h
  | om, store, .dict xs, c, y, c', h, hs => by
    simp only [resolveVal] at h
    cases hr : resolveDict om store xs c with
    | ok p =>
      rw [hr] at h
      cases h
      exact resolve_sound_dict om store xs c p.1 p.2 (by rw [hr]) hs
    | error e =>
      rw [hr] at h
      cases h

theorem resolve_sound_list : ∀ (om : OnMissing) (store : Store) (xs : JfList)
    (c : Cache) (ys : JfList) (c' : Cache),
    resolveList om store xs c = .ok (ys, c') → CacheSound store c → CacheSound store c'
  | om, store, .nil, c, ys, c', h, hs => by
    simp only [resolveList] at h
    cases h
    exact hs
  | om, store, .cons x xs, c, ys, c', h, hs => by
    simp only [resolveList] at h
    cases hr : resolveVal om store x c with
    | ok p =>
      obtain ⟨y0, c0⟩ := p
      simp only [hr] at h
      have hs1 := resolve_sound_val om store x c y0 c0 hr hs
      cases hr2 : resolveList om store xs c0 with
      | ok q =>
        obtain ⟨y1, c1⟩ := q
        simp only [hr2, Except.ok.injEq, Prod.mk.injEq] at h
        exact h.2 ▸ resolve_sound_list om store xs c0 y1 c1 hr2 hs1
      | error e =>
        simp only [hr2] at h
        cases h
    | error e =>
      simp only [hr] at h
      cases h

theorem resolve_sound_dict : ∀ (om : OnMissing) (store : Store) (xs : JfDict)
    (c : Cache) (ys : JfDict) (c' : Cache),
    resolveDict om store xs c = .ok (ys, c') → CacheSound store c → CacheSound store c'
  | om, store, .nil, c, ys, c', h, hs => by
    simp only [resolveDict] at h
    cases h
    exact hs
  | om, store, .cons k x xs, c, ys, c', h, hs => by
    simp only [resolveDict] at h
    cases hr : resolveVal om store x c with
    | ok p =>
      obtain ⟨y0, c0⟩ := p
      simp only [hr] at h
      have hs1 := resolve_sound_val om store x c y0 c0 hr hs
      cases hr2 : resolveDict om store xs c0 with
      | ok q =>
        obtain ⟨y1, c1⟩ := q
        simp only [hr2, Except.ok.injEq, Prod.mk.injEq] at h
        exact h.2 ▸ resolve_sound_dict om store xs c0 y1 c1 hr2 hs1
      | error e =>
        simp only [hr2] at h
        cases h
    | error e =>
      simp only [hr] at h
      cases h

end

mutual

theorem resolve_ok_val : ∀ (om : OnMissing) (store : Store) (v : JfValue) (c : Cache),
    containsMissing store v = false →
    ∃ y c', resolveVal om store v c = .ok (y, c')
  | om, store, .null, c, _ => ⟨.null, c, rfl⟩
  | om, store, .bool b, c, _ => ⟨.bool b, c, rfl⟩
  | om, store, .int i, c, _ => ⟨.int i, c, rfl⟩
  | om, store, .str s, c, _ => ⟨.str s, c, rfl⟩
  | om, store, .ref r, c, h => by
    have hl : (refLookup store r).isSome = true := by
      simpa [containsMissing, refsOfVal] using h
    cases hc : cacheGet c r with
    | some v => exact ⟨v, c, by simp [resolveVal, hc]⟩
    | none =>
      cases hr : refLookup store r with
      | some v => exact ⟨v, cachePut c r v, by simp [resolveVal, hc, hr]⟩
      | none => simp [hr] at hl
  | om, store, .arr xs, c, h => by
    have hx : (refsOfList xs).any (fun r => (refLookup store r).isNone) = false := by
      simpa [containsMissing, refsOfVal] using h
    obtain ⟨ys, c', hok⟩ := resolve_ok_list om store xs c hx
    exact ⟨.arr ys, c', by simp [resolveVal, hok]⟩
  | om, store, .dict xs, c, h => by
    have hx : (refsOfDict xs).any (fun r => (refLookup store r).isNone) = false := by
      simpa [containsMissing, refsOfVal] using h
    obtain ⟨ys, c', hok⟩ := resolve_ok_dict om store xs c hx
    exact ⟨.dict ys, c', by simp [resolveVal, hok]⟩

theorem resolve_ok_list : ∀ (om : OnMissing) (store : Store) (xs : JfList) (c : Cache),
    (refsOfList xs).any (fun r => (refLookup store r).isNone) = false →
    ∃ ys c', resolveList om store xs c = .ok (ys, c')
  | om, store, .nil, c, _ => ⟨.nil, c, rfl⟩
  | om, store, .cons x xs, c, h => by
    have h2 : containsMissing store x = false ∧
        (refsOfList xs).any (fun r => (refLookup store r).isNone) = false := by
      constructor <;> simp_all [refsOfList, List.any_append, containsMissing]
    obtain ⟨y0, c0, hok⟩ := resolve_ok_val om store x c h2.1
    obtain ⟨ys, c1, hok2⟩ := resolve_ok_list om store xs c0 h2.2
    exact ⟨.cons y0 ys, c1, by simp [resolveList, hok, hok2]⟩

theorem resolve_ok_dict : ∀ (om : OnMissing) (store : Store) (xs : JfDict) (c : Cache),
    (refsOfDict xs).any (fun r => (refLookup store r).isNone) = false →
    ∃ ys c', resolveDict om store xs c = .ok (ys, c')
  | om, store, .nil, c, _ => ⟨.nil, c, rfl⟩
  | om, store, .cons k x xs, c, h => by
    have h2 : containsMissing store x = false ∧
        (refsOfDict xs).any (fun r => (refLookup store r).isNone) = false := by
      constructor <;> simp_all [refsOfDict, List.any_append, containsMissing]
    obtain ⟨y0, c0, hok⟩ := resolve_ok_val om store x c h2.1
    obtain ⟨ys, c1, hok2⟩ := resolve_ok_dict om store xs c0 h2.2
    exact ⟨.cons k y0 ys, c1, by simp [resolveDict, hok, hok2]⟩

end

mutual

theorem resolve_err_val : ∀ (store : Store) (v : JfValue) (c : Cache),
    CacheSound store c → containsMissing store v = true →
    resolveVal .ERROR store v c = .error .MissingReference
  | store, .null, c, _, h => by simp [containsMissing, refsOfVal] at h
  | store, .bool b, c, _, h => by simp [containsMissing, refsOfVal] at h
  | store, .int i, c, _, h => by simp [containsMissing, refsOfVal] at h
  | store, .str s, c, _, h => by simp [containsMissing, refsOfVal] at h
  | store, .ref r, c, hs, h => by
    have hl : refLookup store r = none := by
      simpa [containsMissing, refsOfVal, Option.isNone_iff_eq_none] using h
    have hc : cacheGet c r = none := hs r hl
    simp [resolveVal, hc, hl]
  | store, .arr xs, c, hs, h => by
    have hx : (refsOfList xs).any (fun r => (refLookup store r).isNone) = true := by
      simpa [containsMissing, refsOfVal] using h
    simp [resolveVal, resolve_err_list store xs c hs hx]
  | store, .dict xs, c, hs, h => by
    have hx : (refsOfDict xs).any (fun r => (refLookup store r).isNone) = true := by
      simpa [containsMissing, refsOfVal] using h
    simp [resolveVal, resolve_err_dict store xs c hs hx]

theorem resolve_err_list : ∀ (store : Store) (xs : JfList) (c : Cache),
    CacheSound store c →
    (refsOfList xs).any (fun r => (refLookup store r).isNone) = true →
    resolveList .ERROR store xs c = .error .MissingReference
  | store, .nil, c, _, h => by simp [refsOfList] at h
  | store, .cons x xs, c, hs, h => by
    rw [refsOfList, List.any_append, Bool.or_eq_true] at h
    by_cases hx : containsMissing store x = true
    · simp [resolveList, resolve_err_val store x c hs hx]
    · have hx' : containsMissing store x = false := by
        simpa using hx
      have hxs : (refsOfList xs).any (fun r => (refLookup store r).isNone) = true := by
        rcases h with h | h
        · exact absurd h (by simpa [containsMissing] using hx)
        · exact h
      obtain ⟨y0, c0, hok⟩ := resolve_ok_val .ERROR store x c hx'
      have hs0 := resolve_sound_val .ERROR store x c y0 c0 hok hs
      simp [resolveList, hok, resolve_err_list store xs c0 hs0 hxs]

theorem resolve_err_dict : ∀ (store : Store) (xs : JfDict) (c : Cache),
    CacheSound store c →
    (refsOfDict xs).any (fun r => (refLookup store r).isNone) = true →
    resolveDict .ERROR store xs c = .error .MissingReference
  | store, .nil, c, _, h => by simp [refsOfDict] at h
  | store, .cons k x xs, c, hs, h => by
    rw [refsOfDict, List.any_append, Bool.or_eq_true] at h
    by_cases hx : containsMissing store x = true
    · simp [resolveDict, resolve_err_val store x c hs hx]
    · have hx' : containsMissing store x = false := by
        simpa using hx
      have hxs : (refsOfDict xs).any (fun r => (refLookup store r).isNone) = true := by
        rcases h with h | h
        · exact absurd h (by simpa [containsMissing] using hx)
        · exact h
      obtain ⟨y0, c0, hok⟩ := resolve_ok_val .ERROR store x c hx'
      have hs0 := resolve_sound_val .ERROR store x c y0 c0 hok hs
      simp [resolveDict, hok, resolve_err_dict store xs c0 hs0 hxs]

end

mutual

theorem resolve_none_total : ∀ (store : Store) (v : JfValue) (c : Cache),
    ∃ y c', resolveVal .NONE store v c = .ok (y, c')
  | store, .null, c => ⟨.null, c, rfl⟩
  | store, .bool b, c => ⟨.bool b, c, rfl⟩
  | store, .int i, c => ⟨.int i, c, rfl⟩
  | store, .str s, c => ⟨.str s, c, rfl⟩
  | store, .ref r, c => by
    cases hc : cacheGet c r with
    | some v => exact ⟨v, c, by simp [resolveVal, hc]⟩
    | none =>
      cases hr : refLookup store r with
      | some v => exact ⟨v, cachePut c r v, by simp [resolveVal, hc, hr]⟩
      | none => exact ⟨.null, c, by simp [resolveVal, hc, hr]⟩
  | store, .arr xs, c => by
    obtain ⟨ys, c', hok⟩ := resolve_none_total_list store xs c
    exact ⟨.arr ys, c', by simp [resolveVal, hok]⟩
  | store, .dict xs, c => by
    obtain ⟨ys, c', hok⟩ := resolve_none_total_dict store xs c
    exact ⟨.dict ys, c', by simp [resolveVal, hok]⟩

theorem resolve_none_total_list : ∀ (store : Store) (xs : JfList) (c : Cache),
    ∃ ys c', resolveList .NONE store xs c = .ok (ys, c')
  | store, .nil, c => ⟨.nil, c, rfl⟩
  | store, .cons x xs, c => by
    obtain ⟨y0, c0, hok⟩ := resolve_none_total store x c
    obtain ⟨ys, c1, hok2⟩ := resolve_none_total_list store xs c0
    exact ⟨.cons y0 ys, c1, by simp [resolveList, hok, hok2]⟩

theorem resolve_none_total_dict : ∀ (store : Store) (xs : JfDict) (c : Cache),
    ∃ ys c', resolveDict .NONE store xs c = .ok (ys, c')
  | store, .nil, c => ⟨.nil, c, rfl⟩
  | store, .cons k x xs, c => by
    obtain ⟨y0, c0, hok⟩ := resolve_none_total store x c
    obtain ⟨ys, c1, hok2⟩ := resolve_none_total_dict store xs c0
    exact ⟨.cons k y0 ys, c1, by simp [resolveDict, hok, hok2]⟩

end

/-!  Helper lemmas about the Graph Builder's topological sort. -/

theorem topoAux_perm : ∀ (edges : List (Nat × Nat)) (fuel : Nat) (rem L : List Nat),
    topoAux edges fuel rem = some L → L.Perm rem
  | edges, 0, [], L, h => by
    simp only [topoAux, Option.some.injEq] at h
    rw [← h]
  | edges, 0, x :: xs, L, h => by simp [topoAux] at h
  | edges, fuel + 1, [], L, h => by
    simp only [topoAux, Option.some.injEq] at h
    rw [← h]
  | edges, fuel + 1, x :: xs, L, h => by
    simp only [topoAux] at h
    cases hf : (x :: xs).find?
        (fun n => !(edges.any (fun e => e.2 = n && (x :: xs).contains e.1))) with
    | none =>
      simp only [hf] at h
      exact Option.noConfusion h
    | some n =>
      simp only [hf] at h
      cases ht : topoAux edges fuel ((x :: xs).erase n) with
      | none =>
        simp only [ht] at h
        exact Option.noConfusion h
      | some order =>
        simp only [ht, Option.some.injEq] at h
        have hn : n ∈ x :: xs := List.mem_of_find?_eq_some hf
        rw [← h]
        exact ((topoAux_perm edges fuel ((x :: xs).erase n) order ht).cons n).trans
          (List.perm_cons_erase hn).symm

theorem topoAux_sorted : ∀ (edges : List (Nat × Nat)) (fuel : Nat) (rem L : List Nat),
    topoAux edges fuel rem = some L → rem.Nodup →
    ∀ a b : Nat, (a, b) ∈ edges → a ∈ rem → b ∈ rem → posIn L a < posIn L b
  | edges, 0, [], L, h, hnd, a, b, he, ha, hb => by cases ha
  | edges, 0, x :: xs, L, h, hnd, a, b, he, ha, hb => by simp [topoAux] at h
  | edges, fuel + 1, [], L, h, hnd, a, b, he, ha, hb => by cases ha
  | edges, fuel + 1, x :: xs, L, h, hnd, a, b, he, ha, hb => by
    simp only [topoAux] at h
    cases hf : (x :: xs).find?
        (fun n => !(edges.any (fun e => e.2 = n && (x :: xs).contains e.1))) with
    | none =>
      simp only [hf] at h
      exact Option.noConfusion h
    | some n =>
      simp only [hf] at h
      cases ht : topoAux edges fuel ((x :: xs).erase n) with
      | none =>
        simp only [ht] at h
        exact Option.noConfusion h
      | some order =>
        simp only [ht, Option.some.injEq] at h
        have hPn := List.find?_some hf
        rw [Bool.not_eq_true', List.any_eq_false] at hPn
        have hnoin : ∀ e ∈ edges, e.2 = n → e.1 ∉ x :: xs := by
          intro e hme h2 h1
          refine hPn e hme ?_
          simp only [h2]
          simp
          exact List.mem_cons.mp h1
        rw [← h]
        by_cases hbn : b = n
        · exact absurd ha (hnoin (a, b) he (by simpa using hbn))
        · have hbe : b ∈ (x :: xs).erase n := (List.mem_erase_of_ne hbn).mpr hb
          by_cases han : a = n
          · subst han
            simp [posIn, Ne.symm hbn]
          · have hae : a ∈ (x :: xs).erase n := (List.mem_erase_of_ne han).mpr ha
            have ih := topoAux_sorted edges fuel ((x :: xs).erase n) order ht
              (hnd.erase n) a b he hae hbe
            simp only [posIn, Ne.symm han, Ne.symm hbn, if_false]
            omega

theorem edgePath_lt {edges : List (Nat × Nat)} {pos : Nat → Nat}
    (hcons : ∀ e ∈ edges, pos e.1 < pos e.2) :
    ∀ {a b : Nat}, EdgePath edges a b → pos a < pos b := by
  intro a b hp
  induction hp with
  | single h => exact hcons _ h
  | cons h _ ih => exact Nat.lt_trans (hcons _ h) ih

theorem topoSort_ok_sorted {nodes : List Nat} {edges : List (Nat × Nat)} {L : List Nat}
    (h : topoSort nodes edges = .ok L) (hnd : nodes.Nodup) :
    ∀ a b : Nat, (a, b) ∈ edges → a ∈ nodes → b ∈ nodes → posIn L a < posIn L b := by
  unfold topoSort at h
  cases ht : topoAux edges nodes.length nodes with
  | none =>
    simp only [ht] at h
    exact Except.noConfusion h
  | some order =>
    simp only [ht, Except.ok.injEq] at h
    exact h ▸ topoAux_sorted edges nodes.length nodes order ht hnd

theorem topoSort_not_ok_err {nodes : List Nat} {edges : List (Nat × Nat)}
    (h : ∀ L, topoSort nodes edges ≠ .ok L) :
    topoSort nodes edges = .error .CyclicGraph := by
  unfold topoSort at h ⊢
  cases ht : topoAux edges nodes.length nodes with
  | none => simp only [ht]
  | some order =>
    exact absurd (by simp only [ht]) (h order)

theorem flowEdges_mem {f : Flow} {e : Nat × Nat} (he : e ∈ flowEdges f) :
    e.1 ∈ flowNodes f ∧ e.2 ∈ flowNodes f := by
  unfold flowEdges edgesFor at he
  obtain ⟨c, hc, hm⟩ := List.mem_flatMap.mp he
  obtain ⟨r, _, heq⟩ := List.mem_filterMap.mp hm
  by_cases hin : ((flattenFlow f).map Job.origin).contains r.origin_id
  · rw [if_pos hin] at heq
    cases heq
    refine ⟨?_, ?_⟩
    · exact List.mem_dedup.mpr (by simpa using hin)
    · exact List.mem_dedup.mpr (List.mem_map_of_mem Job.origin hc)
  · rw [if_neg hin] at heq
    cases heq


theorem all_blocked_cycle {edges : List (Nat × Nat)} {rem : List Nat}
    (hne : rem ≠ [])
    (hall : ∀ n ∈ rem, ∃ p, p ∈ rem ∧ (p, n) ∈ edges) :
    HasCycle edges := by
  classical
  have hpick : ∀ n : Nat, ∃ p, n ∈ rem → p ∈ rem ∧ (p, n) ∈ edges := by
    intro n
    by_cases hn : n ∈ rem
    · obtain ⟨p, hp⟩ := hall n hn
      exact ⟨p, fun _ => hp⟩
    · exact ⟨0, fun h => absurd h hn⟩
  choose pick hpick2 using hpick
  have hmem : ∀ k : Nat, pick^[k] (rem.head hne) ∈ rem := by
    intro k
    induction k with
    | zero =>
      rw [Function.iterate_zero_apply]
      exact List.head_mem hne
    | succ k ih =>
      rw [Function.iterate_succ_apply']
      exact (hpick2 _ ih).1
  have hedge : ∀ k : Nat,
      (pick^[k + 1] (rem.head hne), pick^[k] (rem.head hne)) ∈ edges := by
    intro k
    rw [Function.iterate_succ_apply']
    exact (hpick2 _ (hmem k)).2
  have hpath : ∀ (d i : Nat),
      EdgePath edges (pick^[i + d + 1] (rem.head hne)) (pick^[i] (rem.head hne)) := by
    intro d
    induction d with
    | zero => exact fun i => .single (hedge i)
    | succ d ih => exact fun i => .cons (hedge (i + d + 1)) (ih i)
  have hcard : (rem.toFinset).card
      < (Finset.univ : Finset (Fin (rem.length + 1))).card := by
    have hle := List.toFinset_card_le rem
    simp only [Finset.card_univ, Fintype.card_fin]
    omega
  obtain ⟨i, -, j, -, hij, hfij⟩ :=
    Finset.exists_ne_map_eq_of_card_lt_of_maps_to hcard
      (fun (a : Fin (rem.length + 1)) _ => List.mem_toFinset.mpr (hmem a.1))
  rcases Nat.lt_trichotomy i.1 j.1 with hlt | heq | hlt
  · obtain ⟨d, hd⟩ : ∃ d, j.1 = i.1 + d + 1 := ⟨j.1 - i.1 - 1, by omega⟩
    refine ⟨pick^[j.1] (rem.head hne), ?_⟩
    have hp := hpath d i.1
    rw [← hd] at hp
    rw [hfij] at hp
    exact hp
  · exact absurd (Fin.val_injective heq) hij
  · obtain ⟨d, hd⟩ : ∃ d, i.1 = j.1 + d + 1 := ⟨i.1 - j.1 - 1, by omega⟩
    refine ⟨pick^[i.1] (rem.head hne), ?_⟩
    have hp := hpath d j.1
    rw [← hd] at hp
    rw [← hfij] at hp
    exact hp

theorem topoAux_complete : ∀ (fuel : Nat) (edges : List (Nat × Nat)) (rem : List Nat),
    rem.length = fuel → ¬ HasCycle edges →
    ∃ L, topoAux edges fuel rem = some L
  | 0, edges, [], _, _ => ⟨[], rfl⟩
  | 0, edges, x :: xs, hlen, _ => by simp at hlen
  | fuel + 1, edges, [], _, _ => ⟨[], rfl⟩
  | fuel + 1, edges, x :: xs, hlen, hacyc => by
    cases hf : (x :: xs).find?
        (fun n => !(edges.any (fun e => e.2 = n && (x :: xs).contains e.1))) with
    | none =>
      exfalso
      apply hacyc
      refine all_blocked_cycle (List.cons_ne_nil x xs) ?_
      intro n hn
      have hPn := List.find?_eq_none.mp hf n hn
      have hany : edges.any (fun e => e.2 = n && (x :: xs).contains e.1) = true := by
        cases hb : edges.any (fun e => e.2 = n && (x :: xs).contains e.1) with
        | true => rfl
        | false =>
          rw [hb] at hPn
          exact absurd rfl hPn
      obtain ⟨e, hme, hcond⟩ := List.any_eq_true.mp hany
      rw [Bool.and_eq_true] at hcond
      have h2 : e.2 = n := by simpa using hcond.1
      refine ⟨e.1, ?_, ?_⟩
      · simpa using hcond.2
      · rw [← h2]
        exact hme
    | some n =>
      have hn : n ∈ x :: xs := List.mem_of_find?_eq_some hf
      have hlen2 : ((x :: xs).erase n).length = fuel := by
        have he := List.length_erase_of_mem hn
        simp only [List.length_cons] at he hlen
        omega
      obtain ⟨L, hL⟩ := topoAux_complete fuel edges ((x :: xs).erase n) hlen2 hacyc
      exact ⟨n :: L, by simp only [topoAux, hf, hL]⟩

theorem topoSort_ok_perm {nodes : List Nat} {edges : List (Nat × Nat)} {L : List Nat}
    (h : topoSort nodes edges = .ok L) : L.Perm nodes := by
  unfold topoSort at h
  cases ht : topoAux edges nodes.length nodes with
  | none =>
    simp only [ht] at h
    exact Except.noConfusion h
  | some order =>
    simp only [ht, Except.ok.injEq] at h
    exact h ▸ topoAux_perm edges nodes.length nodes order ht

theorem topoSort_complete {nodes : List Nat} {edges : List (Nat × Nat)}
    (h : ¬ HasCycle edges) : ∃ L, topoSort nodes edges = .ok L := by
  obtain ⟨L, hL⟩ := topoAux_complete nodes.length edges nodes rfl h
  refine ⟨L, ?_⟩
  unfold topoSort
  simp only [hL]

/-!  Helper lemmas about the driver loop. -/

theorem loopstep {st : DState} {j : Job} (n : Nat) (h : st.aborted = none)
    (h2 : st.stopped = false) (hj : findReady st = some j) :
    runLoop (n + 1) st = runLoop n (stepJob st j) := by
  simp [runLoop, h, h2, hj]

theorem loopdone {st : DState} (n : Nat) (h : st.aborted = none)
    (h2 : st.stopped = false) (hr : findReady st = none) :
    runLoop (n + 1) st = st := by
  simp [runLoop, h, h2, hr]

theorem runLocally_ok {f : Flow} {L : List Nat} (s : Store) (h : flowCheck f = .ok L) :
    runLocally f s = runLoop ((flattenFlow f).length * 4 + 4) (initState f s) := by
  simp [runLocally, h]

/-- C1: for every acyclic Flow, the Graph Builder produces a topological
ordering of the flattened member jobs — the graph check succeeds on every
acyclic edge set, and any order it returns is a permutation of the
flattened member origin ids consistent with every producer→consumer edge
derived from embedded references; for every Flow whose origin_id
dependency graph contains a cycle, the `CyclicGraph` error is raised at
construction time, before any job executes (the driver aborts with the
store untouched and no Response recorded). -/
theorem flow_topo_order_and_cyclic_error (f : Flow) (s : Store) :
    (¬ HasCycle (flowEdges f) → ∃ L, flowCheck f = .ok L) ∧
    (∀ L, flowCheck f = .ok L → L.Perm (flowNodes f) ∧
      ∀ e ∈ flowEdges f, posIn L e.1 < posIn L e.2) ∧
    (HasCycle (flowEdges f) →
      flowCheck f = .error .CyclicGraph ∧
      (runLocally f s).aborted = some .CyclicGraph ∧
      (runLocally f s).store = s ∧ (runLocally f s).responses = []) := by
  have hsorted : ∀ L, flowCheck f = .ok L →
      ∀ e ∈ flowEdges f, posIn L e.1 < posIn L e.2 := by
    intro L hL e he
    have hmem := flowEdges_mem he
    exact topoSort_ok_sorted hL (List.nodup_dedup _) e.1 e.2 he hmem.1 hmem.2
  refine ⟨?_, fun L hL => ⟨topoSort_ok_perm hL, hsorted L hL⟩, ?_⟩
  · intro hnc
    exact topoSort_complete hnc
  · intro hcyc
    have hnotok : ∀ L, flowCheck f ≠ .ok L := by
      intro L hL
      obtain ⟨a, hp⟩ := hcyc
      exact absurd (edgePath_lt (fun e he => hsorted L hL e he) hp) (lt_irrefl _)
    have herr : flowCheck f = .error .CyclicGraph := topoSort_not_ok_err hnotok
    refine ⟨herr, ?_, ?_, ?_⟩ <;> simp [runLocally, herr, initState]

/-- Witness for C1: the concrete acyclic tutorial flow passes the graph
check with the order `[10, 11]`, a permutation of its nodes placing the
producer before the consumer, and a concrete cyclic flow aborts with
`CyclicGraph`. -/
theorem flow_topo_order_and_cyclic_error_witness :
    (∃ L, flowCheck docsFlow = .ok L) ∧
    [10, 11].Perm (flowNodes docsFlow) ∧
    posIn [10, 11] 10 < posIn [10, 11] 11 ∧
    (runLocally cycFlow []).aborted = some .CyclicGraph := by
  have hnc : ¬ HasCycle (flowEdges docsFlow) := by
    rintro ⟨a, hp⟩
    exact absurd
      (@edgePath_lt (flowEdges docsFlow) (fun n => posIn [10, 11] n) (by decide) a a hp)
      (lt_irrefl _)
  refine ⟨(flow_topo_order_and_cyclic_error docsFlow []).1 hnc, ?_, ?_, ?_⟩
  · exact ((flow_topo_order_and_cyclic_error docsFlow []).2.1 [10, 11] rfl).1
  · exact ((flow_topo_order_and_cyclic_error docsFlow []).2.1 [10, 11] rfl).2
      (10, 11) (by decide)
  · exact ((flow_topo_order_and_cyclic_error cycFlow []).2.2
      ⟨20, @EdgePath.cons (flowEdges cycFlow) 20 21 20 (by decide)
        (@EdgePath.single (flowEdges cycFlow) 21 20 (by decide))⟩).2.1

/-- C5: the structural directives `replace`, `addition` and `detour` of a
Response are mutually exclusive — a Response that sets more than one of
them is rejected with the `StructuralConflict` error before any graph
mutation is applied, the driver state staying unchanged apart from the
abort marker. -/
theorem response_structural_conflict (st : DState) (j : Job) (r : Response)
    (h : 2 ≤ r.structuralCount) :
    validateResponse r = .error .StructuralConflict ∧
    handleResponse st j r = { st with aborted := some .StructuralConflict } := by
  have hv : validateResponse r = .error .StructuralConflict := by
    unfold validateResponse
    rw [if_neg (by omega)]
  exact ⟨hv, by simp [handleResponse, hv]⟩

/-- Witness for C5: a Response with both `replace` and `addition` set is
rejected. -/
theorem response_structural_conflict_witness :
    validateResponse conflictResponse = .error .StructuralConflict ∧
    handleResponse (initState (flowOf []) []) addJob conflictResponse
      = { initState (flowOf []) [] with aborted := some .StructuralConflict } :=
  response_structural_conflict _ _ _ (by decide)


/-- C10: when a completed job's Response injects new jobs into the graph
(via `replace`, `addition` or `detour`), the injecting job's metadata is
passed on to the dynamically added jobs automatically — unconditionally,
for every job, state and Response, with no opt-in configuration flag
involved. -/
theorem dynamic_jobs_inherit_metadata (st : DState) (j : Job) (F : Flow)
    (out sd : Option JfValue) (sj : Bool) (k : Job) (hk : k ∈ flattenFlow F) :
    passMetaJob j.metadata k ∈
      (applyResponse st j (.mk out none none (some F) sd false sj)).remaining ∧
    passMetaJob j.metadata k ∈
      (applyResponse st j (.mk out none (some F) none sd false sj)).remaining ∧
    passMetaJob j.metadata k ∈
      (applyResponse st j (.mk out (some F) none none sd false sj)).remaining := by
  refine ⟨?_, ?_, ?_⟩ <;>
  · simp only [applyResponse, Response.replace, Response.addition, Response.detour,
      Response.stop_children, Response.stop_jobflow, Response.output]
    cases sj <;>
      simp only [Bool.false_eq_true, if_false, if_true] <;>
      first
        | exact List.mem_append_left _ (List.mem_map_of_mem _ hk)
        | exact List.mem_append_right _ (List.mem_map_of_mem _ hk)

/-- Witness for C10: a concrete job with nonempty metadata passes it on to
a concrete injected job under each of the three directives. -/
theorem dynamic_jobs_inherit_metadata_witness :
    passMetaJob metaJob.metadata (jobC .null) ∈
      (applyResponse (initState (flowOf []) []) metaJob
        (.mk none none none (some (.job (jobC .null))) none false false)).remaining ∧
    passMetaJob metaJob.metadata (jobC .null) ∈
      (applyResponse (initState (flowOf []) []) metaJob
        (.mk none none (some (.job (jobC .null))) none none false false)).remaining ∧
    passMetaJob metaJob.metadata (jobC .null) ∈
      (applyResponse (initState (flowOf []) []) metaJob
        (.mk none (some (.job (jobC .null))) none none none false false)).remaining :=
  dynamic_jobs_inherit_metadata (initState (flowOf []) []) metaJob
    (.job (jobC .null)) none none false (jobC .null)
    (show jobC .null ∈ [jobC .null] from List.mem_cons_self _ _)

/-- C8: resolving any value with no embedded References returns it
unchanged, independent of the store, the cache and the on_missing policy
supplied (identity law on literals). -/
theorem resolve_identity_on_literals (v : JfValue) (h : hasRefB v = false)
    (om : OnMissing) (store : Store) (c : Cache) :
    resolveVal om store v c = .ok (v, c) := by
  have hr : refsOfVal v = [] := by
    simpa [hasRefB] using h
  exact resolve_noRef_val v hr om store c

/-- Witness for C8: a concrete nested reference-free value resolves to
itself under every policy. -/
theorem resolve_identity_on_literals_witness :
    resolveVal .ERROR [] (.arr (.cons (.int 1)
        (.cons (.dict (.cons "a" .null .nil)) .nil))) []
      = .ok (.arr (.cons (.int 1) (.cons (.dict (.cons "a" .null .nil)) .nil)), []) :=
  resolve_identity_on_literals _ (by decide) .ERROR [] []

/-- C4: resolving a Reference to a completed job with an empty access_path
returns exactly the document stored for that `(origin_id, attempt_index)`;
with a non-empty access_path it returns the value obtained by successively
indexing into that stored document with each element of the access_path in
order. -/
theorem resolve_reference_drills_stored_document (store : Store) (o : Nat)
    (sel : AttemptSel) (doc : JfValue) (om : OnMissing)
    (h : attemptLookup store o sel = some doc) :
    resolveVal om store (.ref ⟨o, sel, []⟩) []
      = .ok (doc, cachePut [] ⟨o, sel, []⟩ doc) ∧
    ∀ (path : List PathKey) (v : JfValue), drill doc path = some v →
      resolveVal om store (.ref ⟨o, sel, path⟩) []
        = .ok (v, cachePut [] ⟨o, sel, path⟩ v) := by
  constructor
  · have hl : refLookup store ⟨o, sel, []⟩ = some doc := by
      simp [refLookup, h, drill]
    simp [resolveVal, cacheGet, hl]
  · intro path v hd
    have hl : refLookup store ⟨o, sel, path⟩ = some v := by
      simp [refLookup, h, hd]
    simp [resolveVal, cacheGet, hl]

/-- Witness for C4: against a store holding `[7]` for origin 3 attempt 1,
the whole-output Reference resolves to the document and the `[0]` path
Reference drills to `7`. -/
theorem resolve_reference_drills_stored_document_witness :
    resolveVal .ERROR [(3, 1, .arr (.cons (.int 7) .nil))]
        (.ref ⟨3, .latest, []⟩) []
      = .ok (.arr (.cons (.int 7) .nil),
          cachePut [] ⟨3, .latest, []⟩ (.arr (.cons (.int 7) .nil))) ∧
    resolveVal .ERROR [(3, 1, .arr (.cons (.int 7) .nil))]
        (.ref ⟨3, .latest, [.item 0]⟩) []
      = .ok (.int 7, cachePut [] ⟨3, .latest, [.item 0]⟩ (.int 7)) := by
  have h := resolve_reference_drills_stored_document
    [(3, 1, .arr (.cons (.int 7) .nil))] 3 .latest
    (.arr (.cons (.int 7) .nil)) .ERROR rfl
  exact ⟨h.1, h.2 [.item 0] (.int 7) rfl⟩


/-- C2: for every job input containing a Reference to a producer whose
output is missing (failed or never ran): with `on_missing = ERROR` (the
default) resolution fails with `MissingReference` before the job's own
callable executes (the run result is independent of the callable); with
`on_missing = NONE` resolution substitutes null for that single Reference
and the job executes (resolution always succeeds); with
`on_missing = PASS` the unresolved Reference object is left in place in
the resolved structure.  The driver-level conjuncts replay the
failing-dependencies tutorial: the `NONE` collect job runs and totals 2,
while the `ERROR` variant is marked failed with nothing stored, whatever
its callable. -/
theorem missing_reference_policies (store : Store) (r : OutputReference)
    (hmiss : refLookup store r = none) :
    (∀ v : JfValue, containsMissing store v = true →
      resolveVal .ERROR store v [] = .error .MissingReference) ∧
    (∀ (o : Nat) (nm : String) (ins : JfValue) (md : List (String × JfValue)),
      containsMissing store ins = true →
      ∀ f g : JfValue → RunResult,
        jobRun (.mk o nm ins f .ERROR md) store = .error .MissingReference ∧
        jobRun (.mk o nm ins f .ERROR md) store
          = jobRun (.mk o nm ins g .ERROR md) store) ∧
    resolveVal .NONE store (.ref r) [] = .ok (.null, []) ∧
    (∀ (v : JfValue) (c : Cache), ∃ y c', resolveVal .NONE store v c = .ok (y, c')) ∧
    resolveVal .PASS store (.ref r) [] = .ok (.ref r, []) ∧
    resolveVal .PASS store (.arr (.cons (.ref r) .nil)) []
      = .ok (.arr (.cons (.ref r) .nil), []) ∧
    defaultOnMissing = .ERROR ∧
    getResp (runLocally (tutorialFlow .NONE collectFn) []) 4 1
      = some (valueResponse (.int 2)) ∧
    (∀ g : JfValue → RunResult,
      lookupState (runLocally (tutorialFlow .ERROR g) []) 4 = some .FAILED ∧
      storeHasOrigin (runLocally (tutorialFlow .ERROR g) []).store 4 = false) := by
  refine ⟨?_, ?_, ?_, ?_, ?_, ?_, rfl, rfl, ?_⟩
  · intro v hv
    exact resolve_err_val store v [] (cacheSound_nil store) hv
  · intro o nm ins md hins f g
    have herr := resolve_err_val store ins [] (cacheSound_nil store) hins
    constructor
    · simp [jobRun, Job.inputs, Job.onMissing, herr]
    · simp [jobRun, Job.inputs, Job.onMissing, herr]
  · simp [resolveVal, cacheGet, hmiss]
  · intro v c
    exact resolve_none_total store v c
  · simp [resolveVal, cacheGet, hmiss]
  · simp [resolveVal, resolveList, cacheGet, hmiss]
  · intro g
    exact ⟨rfl, rfl⟩

/-- Witness for C2: against the empty store, a Reference to origin 1 is
missing; `ERROR` fails resolution, `NONE` substitutes null, `PASS` keeps
the Reference. -/
theorem missing_reference_policies_witness :
    resolveVal .ERROR [] (.ref ⟨1, .latest, []⟩) [] = .error .MissingReference ∧
    resolveVal .NONE [] (.ref ⟨1, .latest, []⟩) [] = .ok (.null, []) ∧
    resolveVal .PASS [] (.ref ⟨1, .latest, []⟩) []
      = .ok (.ref ⟨1, .latest, []⟩, []) := by
  have h := missing_reference_policies [] ⟨1, .latest, []⟩ rfl
  exact ⟨h.1 (.ref ⟨1, .latest, []⟩) rfl, h.2.2.1, h.2.2.2.2.1⟩


/-- C3: for every job whose run returns `Response(replace=Flow([C]))`
(here with C producing an arbitrary value `v` and an arbitrary consumer
applying `f` to the replaced job's output), C is subsequently executed
(its document is stored and its Response recorded), the consumer resolves
its reference from C's output once C completes (its recorded output is
`f v`), and the replaced job itself never appears as a value source (the
store holds no document under its origin and its node ends `REPLACED`). -/
theorem replace_directive_semantics (v : JfValue) (f : JfValue → JfValue) :
    lookupDoc (runLocally (replaceFlow v f) []).store 2 1 = some v ∧
    getResp (runLocally (replaceFlow v f) []) 2 1 = some (valueResponse v) ∧
    getResp (runLocally (replaceFlow v f) []) 3 1 = some (valueResponse (f v)) ∧
    storeHasOrigin (runLocally (replaceFlow v f) []).store 1 = false ∧
    lookupState (runLocally (replaceFlow v f) []) 1 = some .REPLACED := by
  have hrun : runLocally (replaceFlow v f) [] = st3fin v f := rfl
  rw [hrun]
  exact ⟨rfl, rfl, rfl, rfl, rfl⟩

/-- C6: a job whose Response sets `stop_children` (here job A over an
arbitrary child callable `fB`, branch value `d` and join callable `g`)
causes the node reachable only through it (B) to transition to `CANCELLED`
without ever being invoked (no document, no Response), while the jobs of
the same flow that are not exclusively downstream of it — the unrelated
branch D and the join E, which also depends on D — still run to
completion. -/
theorem stop_children_cancels_exclusive_descendants
    (fB : JfValue → RunResult) (d : JfValue) (g : JfValue → JfValue) :
    lookupState (runLocally (stopFlow fB d g) []) 2 = some .CANCELLED ∧
    storeHasOrigin (runLocally (stopFlow fB d g) []).store 2 = false ∧
    getResp (runLocally (stopFlow fB d g) []) 2 1 = none ∧
    lookupState (runLocally (stopFlow fB d g) []) 3 = some .COMPLETED ∧
    lookupDoc (runLocally (stopFlow fB d g) []).store 3 1 = some d ∧
    lookupState (runLocally (stopFlow fB d g) []) 5 = some .COMPLETED ∧
    lookupDoc (runLocally (stopFlow fB d g) []).store 5 1 = some (g (argE6 d)) := by
  have h1 : stepJob (st6a fB d g) jobA6
      = pruneChildren ⟨[jobB6 fB, jobD6 d, jobE6 g], [(1, 2), (1, 5), (3, 5)],
          [(1, 1, .int 1)], [(1, [(1, respA6)])],
          [(1, .COMPLETED), (2, .PENDING), (3, .PENDING), (5, .PENDING)],
          false, none⟩ 1 := rfl
  have h2 : pruneChildren ⟨[jobB6 fB, jobD6 d, jobE6 g], [(1, 2), (1, 5), (3, 5)],
        [(1, 1, .int 1)], [(1, [(1, respA6)])],
        [(1, .COMPLETED), (2, .PENDING), (3, .PENDING), (5, .PENDING)],
        false, none⟩ 1 = st6b d g := by
    simp only [pruneChildren]
    rw [show ([jobB6 fB, jobD6 d, jobE6 g].map Job.origin) = [2, 3, 5] from rfl]
    rw [show survivorsOf [(1, 2), (1, 5), (3, 5)] [2, 3, 5] 1 = [3, 5] from rfl]
    rfl
  have h3 : stepJob (st6b d g) (jobD6 d) = st6c d g := rfl
  have h4 : stepJob (st6c d g) (jobE6 g) = st6d d g := rfl
  have hrun : runLocally (stopFlow fB d g) [] = st6d d g := by
    rw [runLocally_ok [] (show flowCheck (stopFlow fB d g) = .ok [1, 2, 3, 5] from rfl)]
    rw [show (flattenFlow (stopFlow fB d g)).length * 4 + 4 = 19 + 1 from rfl]
    rw [show initState (stopFlow fB d g) [] = st6a fB d g from rfl]
    rw [loopstep 19 rfl rfl (show findReady (st6a fB d g) = some jobA6 from rfl)]
    rw [h1, h2]
    rw [show (19 : Nat) = 18 + 1 from rfl]
    rw [loopstep 18 rfl rfl (show findReady (st6b d g) = some (jobD6 d) from rfl)]
    rw [h3]
    rw [show (18 : Nat) = 17 + 1 from rfl]
    rw [loopstep 17 rfl rfl (show findReady (st6c d g) = some (jobE6 g) from rfl)]
    rw [h4]
    rw [show (17 : Nat) = 16 + 1 from rfl]
    rw [loopdone 16 rfl rfl (show findReady (st6d d g) = none from rfl)]
  rw [hrun]
  exact ⟨rfl, rfl, rfl, rfl, rfl, rfl, rfl⟩

/-- C7: running the same Flow definition twice against one store produces,
for the job's origin id, two distinct attempt indices (documents under
attempts 1 and 2), with neither run overwriting the other's stored
document (attempt 1 is unchanged by the second run, and in general `put`
never touches other attempt indices); a Reference resolved with
`attempt_index="latest"` after the second run yields the second run's
recorded output; and the origin id under which both runs are recorded is
identical. -/
theorem rerun_attempt_indexing (f : JfValue → JfValue) :
    lookupDoc (runLocally (rerunFlow f) []).store 7 1 = some (f .null) ∧
    getResp (runLocally (rerunFlow f) []) 7 1 = some (valueResponse (f .null)) ∧
    lookupDoc (runLocally (rerunFlow f)
        (runLocally (rerunFlow f) []).store).store 7 2 = some (f .null) ∧
    lookupDoc (runLocally (rerunFlow f)
        (runLocally (rerunFlow f) []).store).store 7 1
      = lookupDoc (runLocally (rerunFlow f) []).store 7 1 ∧
    getResp (runLocally (rerunFlow f)
        (runLocally (rerunFlow f) []).store) 7 2
      = some (valueResponse (f .null)) ∧
    resolveVal .ERROR (runLocally (rerunFlow f)
        (runLocally (rerunFlow f) []).store).store (.ref ⟨7, .latest, []⟩) []
      = .ok (f .null, cachePut [] ⟨7, .latest, []⟩ (f .null)) ∧
    (∀ (store : Store) (o : Nat) (doc : JfValue) (a : Nat),
      a ≠ maxAttempt store o + 1 →
      lookupDoc (putDoc store o doc) o a = lookupDoc store o a) := by
  refine ⟨rfl, rfl, rfl, rfl, rfl, rfl, ?_⟩
  intro store o doc a ha
  simp [lookupDoc, putDoc, List.find?, Ne.symm ha]

/-- Witness for C7: the general no-overwrite conjunct at a concrete store,
origin and attempt. -/
theorem rerun_attempt_indexing_witness :
    lookupDoc (putDoc [(7, 1, .int 5)] 7 (.int 6)) 7 1
      = lookupDoc [(7, 1, .int 5)] 7 1 :=
  (rerun_attempt_indexing id).2.2.2.2.2.2 [(7, 1, .int 5)] 7 (.int 6) 1 (by decide)

/-- C9: the local driver's result maps each executed job's uuid to a
response dictionary keyed by attempt index holding that job's Response
objects; a job's first execution is recorded under attempt index 1, and
the callable's plain return value appears as the `output` field of that
Response — concretely for the creating-flows tutorial (`add` → 5,
`mult` → 15), and for an arbitrary single-job flow with callable `f`. -/
theorem run_locally_response_mapping (f : JfValue → JfValue) :
    getResp (runLocally docsFlow []) 10 1 = some (valueResponse (.int 5)) ∧
    getResp (runLocally docsFlow []) 11 1 = some (valueResponse (.int 15)) ∧
    getResp (runLocally (rerunFlow f) []) 7 1 = some (valueResponse (f .null)) ∧
    (runLocally (rerunFlow f) []).responses
      = [(7, [(1, valueResponse (f .null))])] :=
  ⟨rfl, rfl, rfl, rfl⟩

end Jobflow
